import Mathlib

/- Verification of the Flux step-sequencer core. This file gives a shallow
   embedding of the pattern data model (src-tauri/src/shared/models.rs), the
   audio kernel (src-tauri/src/engine/kernel.rs) and the MIDI clock engine
   (src-tauri/src/engine/midi_engine.rs), idealizing 32-bit float arithmetic
   as exact rational (and, where transcendental functions appear, real)
   arithmetic, and proves theorems about the embedded operations. -/

namespace Flux

/- Truncating remainder, as computed by the Rust percent operator on floats,
   idealized over the rationals: the result carries the sign of the dividend. -/

def ratTrunc (x : ℚ) : ℚ := if 0 ≤ x then (⌊x⌋ : ℚ) else (⌈x⌉ : ℚ)

def rustRem (x y : ℚ) : ℚ := x - y * ratTrunc (x / y)

/- Data model, from src-tauri/src/shared/models.rs. -/

inductive TrigType
  | None
  | Note
  | Lock
  | SynthTrigger
  | OneShot
  deriving DecidableEq, Repr

inductive LogicOp
  | And
  | Or
  | Xor
  | Not
  deriving DecidableEq, Repr

structure TrigCondition where
  prob : ℕ
  logic : LogicOp
  deriving DecidableEq, Repr

def TrigCondition.default : TrigCondition := ⟨100, LogicOp.And⟩

/- ParameterLocks is a 128-entry array of optional values; we embed it as a
   list that invariantly has length 128 (AtomicStep.default builds it so). -/

structure AtomicStep where
  trig_type : TrigType
  note : ℕ
  velocity : ℕ
  length : ℚ
  micro_timing : ℤ
  condition : TrigCondition
  sound_lock : Option ℕ
  p_locks : List (Option ℚ)
  is_slide : Bool
  retrig_rate : ℕ
  deriving DecidableEq, Repr

def AtomicStep.default : AtomicStep :=
  { trig_type := TrigType.None
    note := 60
    velocity := 100
    length := 1
    micro_timing := 0
    condition := TrigCondition.default
    sound_lock := Option.none
    p_locks := List.replicate 128 Option.none
    is_slide := false
    retrig_rate := 0 }

inductive MachineType
  | OneShot
  | Werp
  | Slice
  | FmTone
  | Subtractive
  | TonverkBus
  | MidiCC
  deriving DecidableEq, Repr

structure Subtrack where
  voice_id : ℕ
  steps : List AtomicStep
  deriving DecidableEq, Repr

/- In the engine crate the Designer table is a fixed 16-entry float array. -/

inductive LFOShape
  | Sine
  | Triangle
  | Square
  | Random
  | Designer (points : Fin 16 → ℚ)

structure LFO where
  shape : LFOShape
  destination : ℕ
  amount : ℚ
  speed : ℚ
  phase : ℚ

def LFO.default : LFO :=
  { shape := LFOShape.Triangle, destination := 74, amount := 0, speed := 1, phase := 0 }

structure Track where
  id : ℕ
  machine : MachineType
  subtracks : List Subtrack
  length : ℕ
  scale : ℚ
  lfos : List LFO

structure Pattern where
  tracks : List Track
  bpm : ℚ
  master_length : ℕ

/-- Modelled from the spec: the engine crate declares Pattern without a Default
implementation (the impl Default for Pattern the kernel calls is missing from
the engine sources), so the default subtrack is taken from the spec wording in
section 3: sixteen steps created with safe defaults. -/
def defaultSubtrack : Subtrack := ⟨0, List.replicate 16 AtomicStep.default⟩

/-- Modelled from the spec: one default track of the default pattern, with its
id equal to its position, one subtrack of sixteen default steps, a step length
of 16 and unit time scale. The spec leaves default modulators unspecified, so
the track carries no LFO. -/
def defaultTrack (i : ℕ) : Track :=
  ⟨i, MachineType.OneShot, [defaultSubtrack], 16, 1, []⟩

/-- Modelled from the spec: created with a default 4-track, 16-step pattern at
120 BPM (section 3, Pattern lifecycle). This stands in for the Pattern Default
implementation that FluxKernel.new calls but that is missing from the engine
sources. -/
def Pattern.default : Pattern :=
  ⟨[defaultTrack 0, defaultTrack 1, defaultTrack 2, defaultTrack 3], 120, 16⟩

/- Audio kernel, from src-tauri/src/engine/kernel.rs. -/

/-- Helper to convert a MIDI note number to Hz, from midi_to_freq in kernel.rs:
440 times 2 to the power of (note - 69) / 12. -/
noncomputable def midi_to_freq (note : ℚ) : ℝ :=
  440 * (2 : ℝ) ^ (((note : ℝ) - 69) / 12)

/- PARAM_PITCH from src-tauri/src/engine/domain.rs. -/

def PARAM_PITCH : ℕ := 0

inductive AudioCommand
  | Play
  | Stop
  | SetGlobalVolume (v : ℚ)
  | ToggleStep (track_id step_idx : ℕ)
  | SetParamLock (track_id step_idx param_id : ℕ) (value : Option ℚ)

structure FluxKernel where
  pattern : Pattern
  is_playing : Bool
  playhead_sample : ℕ
  sample_rate : ℚ
  tempo : ℚ
  samples_per_step : ℚ
  step_phase : ℚ
  current_step : ℕ
  current_frequency : ℝ
  current_decay : ℚ

/- Reading entry i of a p-lock array, as in the Rust indexing followed by
   unwrap_or: the embedded list access composed with Option join. -/

def pLockAt (st : AtomicStep) (i : ℕ) : Option ℚ := (st.p_locks.get? i).join

/- Vec get_mut followed by an in-place update: apply f at index i when the
   index is in bounds, otherwise leave the list unchanged. -/

def modifyIdx {α : Type _} (f : α → α) : ℕ → List α → List α
  | _, [] => []
  | 0, a :: as => f a :: as
  | n + 1, a :: as => a :: modifyIdx f n as

def fourOnFloorStep (i : ℕ) : AtomicStep :=
  if i % 4 = 0 then { AtomicStep.default with trig_type := TrigType.Note, note := 60 }
  else AtomicStep.default

/-- FluxKernel.new from kernel.rs: tempo 120, samples_per_step derived from the
sample rate, a four-on-the-floor track pushed onto the default pattern, stopped,
with the step phase saturated and the current step one position behind step 0. -/
noncomputable def FluxKernel.new (sample_rate : ℚ) : FluxKernel :=
  let tempo : ℚ := 120
  let samples_per_step := sample_rate * 60 / (tempo * 4)
  let steps := (List.range 16).map fourOnFloorStep
  let subtrack : Subtrack := ⟨0, steps⟩
  let track : Track := ⟨0, MachineType.OneShot, [subtrack], 16, 1, []⟩
  let pattern : Pattern := { Pattern.default with tracks := Pattern.default.tracks ++ [track] }
  { pattern := pattern
    is_playing := false
    playhead_sample := 0
    sample_rate := sample_rate
    tempo := tempo
    samples_per_step := samples_per_step
    step_phase := samples_per_step
    current_step := 15
    current_frequency := 440
    current_decay := 1 / 2 }

/-- One command of the drain-and-apply loop at the top of FluxKernel.process. -/
def FluxKernel.applyCommand (k : FluxKernel) : AudioCommand → FluxKernel
  | AudioCommand.Play => { k with is_playing := true }
  | AudioCommand.Stop =>
      { k with is_playing := false, playhead_sample := 0, current_step := 15,
               step_phase := k.samples_per_step }
  | AudioCommand.SetGlobalVolume _ => k
  | AudioCommand.ToggleStep track_id step_idx =>
      let toggle : AtomicStep → AtomicStep := fun st =>
        { st with
            trig_type :=
              match st.trig_type with
              | TrigType.None => TrigType.Note
              | _ => TrigType.None }
      let onTrack : Track → Track := fun tr =>
        { tr with
            subtracks :=
              modifyIdx (fun sub => { sub with steps := modifyIdx toggle step_idx sub.steps })
                0 tr.subtracks }
      { k with
          pattern :=
            { k.pattern with tracks := modifyIdx onTrack track_id k.pattern.tracks } }
  | AudioCommand.SetParamLock track_id step_idx param_id val =>
      let setLock : AtomicStep → AtomicStep := fun st =>
        if param_id < 128 then { st with p_locks := st.p_locks.set param_id val } else st
      let onTrack : Track → Track := fun tr =>
        { tr with
            subtracks :=
              modifyIdx (fun sub => { sub with steps := modifyIdx setLock step_idx sub.steps })
                0 tr.subtracks }
      { k with
          pattern :=
            { k.pattern with tracks := modifyIdx onTrack track_id k.pattern.tracks } }

def FluxKernel.applyCommands (k : FluxKernel) (cmds : List AudioCommand) : FluxKernel :=
  cmds.foldl FluxKernel.applyCommand k

/- The trigger lookup inside the audio loop: track 0, subtrack 0, step i. -/

def stepAt (p : Pattern) (i : ℕ) : Option AtomicStep :=
  (p.tracks.get? 0).bind fun tr => (tr.subtracks.get? 0).bind fun sub => sub.steps.get? i

/-- One output frame of the audio generation loop in FluxKernel.process: when
playing, advance the step phase by one sample; on crossing samples_per_step,
subtract the threshold, advance the step index mod 16, and if the reached step
on track 0, subtrack 0 has a trigger, resolve its pitch (pitch p-lock first,
stored note as fallback) into the voice frequency and reset the playhead; then
advance the playhead by one sample. -/
noncomputable def FluxKernel.frame (k : FluxKernel) : FluxKernel :=
  if k.is_playing then
    let phase := k.step_phase + 1
    if k.samples_per_step ≤ phase then
      let phase2 := phase - k.samples_per_step
      let step2 := (k.current_step + 1) % 16
      let k2 : FluxKernel := { k with step_phase := phase2, current_step := step2 }
      let k3 : FluxKernel :=
        match stepAt k.pattern step2 with
        | Option.some st =>
            if st.trig_type ≠ TrigType.None then
              { k2 with
                current_frequency := midi_to_freq ((pLockAt st PARAM_PITCH).getD (st.note : ℚ)),
                playhead_sample := 0 }
            else k2
        | Option.none => k2
      { k3 with playhead_sample := k3.playhead_sample + 1 }
    else
      { k with step_phase := phase, playhead_sample := k.playhead_sample + 1 }
  else k

noncomputable def FluxKernel.processFrames (k : FluxKernel) : ℕ → FluxKernel
  | 0 => k
  | n + 1 => k.frame.processFrames n

/-- One invocation of FluxKernel.process: drain and apply the queued commands,
then generate the given number of output frames. -/
noncomputable def FluxKernel.process (k : FluxKernel) (cmds : List AudioCommand) (frames : ℕ) :
    FluxKernel :=
  (k.applyCommands cmds).processFrames frames

/- Kernel states reachable from a given initial state by process invocations. -/

inductive Reachable (init : FluxKernel) : FluxKernel → Prop
  | refl : Reachable init init
  | step (s : FluxKernel) (cmds : List AudioCommand) (n : ℕ) :
      Reachable init s → Reachable init (s.process cmds n)

/- MIDI clock engine, from src-tauri/src/engine/midi_engine.rs. The three send
   helpers build the standard 3-byte channel messages; the engine output is
   embedded as the ordered list of messages a tick emits. -/

structure MidiMsg where
  status : ℕ
  data1 : ℕ
  data2 : ℕ
  deriving DecidableEq, Repr

def send_note_on (channel note velocity : ℕ) : MidiMsg :=
  ⟨0x90 ||| (channel &&& 0x0F), note, velocity⟩

def send_note_off (channel note : ℕ) : MidiMsg :=
  ⟨0x80 ||| (channel &&& 0x0F), note, 0⟩

def send_cc (channel cc val : ℕ) : MidiMsg :=
  ⟨0xB0 ||| (channel &&& 0x0F), cc, val⟩

/- Phase composition in calculate_lfo: global_phase * speed + phase offset,
   reduced by the float remainder by 1.0 and corrected into the non-negative
   range when the remainder came out negative. -/

def lfoLocalPhase (speed phaseOffset global_phase : ℚ) : ℚ :=
  let p := rustRem (global_phase * speed + phaseOffset) 1
  if p < 0 then p + 1 else p

/- The Designer table index: floor of local_phase * 16, cast to usize. -/

def designerIdx (phase : ℚ) : ℕ := (⌊phase * 16⌋).toNat

/-- MidiEngine.calculate_lfo: evaluate the LFO shape at the composed local
phase and scale the raw value by the LFO amount. The Random shape is the
placeholder aliased to Sine, and the Designer shape interpolates the 16-point
table linearly, indexing at idx mod 16 and (idx + 1) mod 16. -/
noncomputable def calculate_lfo (lfo : LFO) (global_phase : ℚ) : ℝ :=
  let phase := lfoLocalPhase lfo.speed lfo.phase global_phase
  let raw : ℝ :=
    match lfo.shape with
    | LFOShape.Sine => Real.sin ((phase : ℝ) * 2 * Real.pi)
    | LFOShape.Triangle =>
        if phase < 1 / 4 then ((phase * 4 : ℚ) : ℝ)
        else if phase < 3 / 4 then ((1 - (phase - 1 / 4) * 4 : ℚ) : ℝ)
        else (((-1) + (phase - 3 / 4) * 4 : ℚ) : ℝ)
    | LFOShape.Square => if phase < 1 / 2 then 1 else -1
    | LFOShape.Random => Real.sin ((phase : ℝ) * 2 * Real.pi)
    | LFOShape.Designer points =>
        let idx_f : ℚ := phase * 16
        let idx : ℕ := designerIdx phase
        let next_idx : ℕ := (idx + 1) % 16
        let frac : ℚ := idx_f - (idx : ℚ)
        let p1 := points ⟨idx % 16, Nat.mod_lt _ (by norm_num)⟩
        let p2 := points ⟨next_idx, Nat.mod_lt _ (by norm_num)⟩
        ((p1 + (p2 - p1) * frac : ℚ) : ℝ)
  raw * (lfo.amount : ℝ)

/- Map a bipolar LFO value to a controller byte, as inside process_tick: scale
   from -1..1 to 0..127, clamp, and truncate by the float to u8 cast. -/

noncomputable def ccValOf (v : ℝ) : ℕ :=
  (⌊min (127 : ℝ) (max 0 ((v + 1) / 2 * 127))⌋).toNat

/- The LFO loop of process_tick for one track: one CC message per LFO with a
   nonzero amount, in table order. -/

noncomputable def lfoPass (channel : ℕ) (gp : ℚ) : List LFO → List MidiMsg
  | [] => []
  | l :: ls =>
      (if l.amount ≠ 0 then [send_cc channel l.destination (ccValOf (calculate_lfo l gp))]
       else []) ++ lfoPass channel gp ls

noncomputable def ccSection (gp : ℚ) : List Track → List MidiMsg
  | [] => []
  | tr :: rest => lfoPass (tr.id % 256) gp tr.lfos ++ ccSection gp rest

/- The step trigger loop of process_tick: for each subtrack, look up the step
   at the active index; a step with the Note trigger kind emits a note-on and
   immediately a note-off. -/

def subNotes (channel idx : ℕ) : List Subtrack → List MidiMsg
  | [] => []
  | sub :: rest =>
      (match sub.steps.get? idx with
       | Option.some st =>
           if st.trig_type = TrigType.Note
           then [send_note_on channel st.note st.velocity, send_note_off channel st.note]
           else []
       | Option.none => []) ++ subNotes channel idx rest

def trackNotes (idx : ℕ) : List Track → List MidiMsg
  | [] => []
  | tr :: rest => subNotes (tr.id % 256) idx tr.subtracks ++ trackNotes idx rest

def noteSection (tick_count : ℕ) (p : Pattern) : List MidiMsg :=
  if tick_count % 6 = 0 then trackNotes ((tick_count / 6) % 16) p.tracks else []

/-- MidiEngine.process_tick: compute the global phase over a 96-tick bar, send
the LFO control changes for every track, then every 6 ticks evaluate the step
grid at index (tick_count / 6) mod 16 and send the note events. -/
noncomputable def process_tick (tick_count : ℕ) (p : Pattern) : List MidiMsg :=
  let bar_ticks : ℚ := 96
  let global_phase : ℚ := rustRem (tick_count : ℚ) bar_ticks / bar_ticks
  ccSection global_phase p.tracks ++ noteSection tick_count p

/- Engine commands and the command drain, from midi_engine.rs. -/

inductive EngineCommand
  | UpdatePattern (p : Pattern)
  | SetLFOShape (track_id lfo_index : ℕ) (shape : LFOShape)
  | SetLFODesignerValue (track_id lfo_index step : ℕ) (value : ℚ)

structure MidiEngineState where
  pattern : Option Pattern
  ppqn : ℕ
  bpm : ℚ

/- The state MidiEngine.new starts from: no pattern, 24 PPQN, 120 BPM. -/

def MidiEngineState.new : MidiEngineState := ⟨Option.none, 24, 120⟩

def applyEngineCommand (e : MidiEngineState) : EngineCommand → MidiEngineState
  | EngineCommand.UpdatePattern p => { e with bpm := p.bpm, pattern := Option.some p }
  | EngineCommand.SetLFOShape track_id lfo_index shape =>
      match e.pattern with
      | Option.none => e
      | Option.some p =>
          let onTrack : Track → Track := fun tr =>
            { tr with lfos := modifyIdx (fun l => { l with shape := shape }) lfo_index tr.lfos }
          { e with
              pattern := Option.some { p with tracks := modifyIdx onTrack track_id p.tracks } }
  | EngineCommand.SetLFODesignerValue track_id lfo_index step value =>
      match e.pattern with
      | Option.none => e
      | Option.some p =>
          let onLfo : LFO → LFO := fun l =>
            match l.shape with
            | LFOShape.Designer points =>
                if h : step < 16
                then { l with shape := LFOShape.Designer (Function.update points ⟨step, h⟩ value) }
                else l
            | _ => l
          let onTrack : Track → Track := fun tr =>
            { tr with lfos := modifyIdx onLfo lfo_index tr.lfos }
          { e with
              pattern := Option.some { p with tracks := modifyIdx onTrack track_id p.tracks } }

/- The pattern invariants of spec section 3: at least one track; track ids
   equal positions; every subtrack of a track makes the track step length
   addressable; every step has the full 128 p-lock slots. -/

def Pattern.WF (p : Pattern) : Prop :=
  p.tracks ≠ [] ∧
  (∀ i (h : i < p.tracks.length), (p.tracks.get ⟨i, h⟩).id = i) ∧
  (∀ tr ∈ p.tracks, ∀ sub ∈ tr.subtracks,
     tr.length ≤ sub.steps.length ∧ ∀ st ∈ sub.steps, st.p_locks.length = 128)

/- An addressed track and step outside the current pattern shape: the chain of
   Vec lookups at track_id, first subtrack, step_idx does not reach a step. -/

def StepAddrInvalid (p : Pattern) (track_id step_idx : ℕ) : Prop :=
  ∀ tr, p.tracks.get? track_id = Option.some tr →
    ∀ sub, tr.subtracks.get? 0 = Option.some sub → sub.steps.length ≤ step_idx

/- Concrete fixtures used to instantiate the theorems below on closed inputs. -/

def designerTestTable : Fin 16 → ℚ := fun i => if i.val = 1 then 1 else 0

def designerTestLFO : LFO := ⟨LFOShape.Designer designerTestTable, 0, 1, 1, 0⟩

def wrapTestTable : Fin 16 → ℚ := fun i => if i.val = 0 then 4 else if i.val = 15 then 2 else 0

def wrapTestLFO : LFO := ⟨LFOShape.Designer wrapTestTable, 0, 1, 1, 0⟩

def oneShotStep : AtomicStep :=
  { AtomicStep.default with trig_type := TrigType.OneShot, note := 61, velocity := 99 }

def cexPatternA : Pattern :=
  ⟨[⟨0, MachineType.OneShot, [⟨0, [oneShotStep]⟩], 1, 1, []⟩], 120, 16⟩

def noteStep16 : AtomicStep :=
  { AtomicStep.default with trig_type := TrigType.Note, note := 62, velocity := 101 }

def cexSteps32 : List AtomicStep :=
  (List.range 32).map fun i => if i = 16 then noteStep16 else AtomicStep.default

def cexPatternB : Pattern :=
  ⟨[⟨0, MachineType.OneShot, [⟨0, cexSteps32⟩], 32, 1, []⟩], 120, 32⟩

def noteStep0 : AtomicStep := { AtomicStep.default with trig_type := TrigType.Note }

def witPatternC2 : Pattern :=
  ⟨[⟨0, MachineType.OneShot, [⟨0, [noteStep0]⟩], 1, 1, []⟩], 120, 16⟩

def c3Step : AtomicStep :=
  { AtomicStep.default with
      trig_type := TrigType.Note,
      p_locks := Option.some 72 :: List.replicate 127 Option.none }

def c3Pattern : Pattern :=
  ⟨[⟨0, MachineType.OneShot, [⟨0, [c3Step]⟩], 1, 1, []⟩], 120, 16⟩

noncomputable def c3Kernel : FluxKernel :=
  ⟨c3Pattern, true, 0, 44100, 120, 11025 / 2, 11025 / 2, 15, 440, 1 / 2⟩

/- Generic lemmas about the bounded list modification that models Vec get_mut
   followed by an in-place write. -/

theorem modifyIdx_eq_of_get? {α : Type _} (f : α → α) (i : ℕ) (l : List α)
    (h : ∀ a, l.get? i = Option.some a → f a = a) : modifyIdx f i l = l := by
  induction l generalizing i with
  | nil => cases i <;> rfl
  | cons a as ih =>
      cases i with
      | zero => simp [modifyIdx, h a rfl]
      | succ n =>
          simp only [modifyIdx, List.cons.injEq, true_and]
          exact ih n fun b hb => h b (by simpa using hb)

/- The truncating remainder by one lies strictly between -1 and 1. -/

theorem rustRem_one_bounds (x : ℚ) : -1 < rustRem x 1 ∧ rustRem x 1 < 1 := by
  unfold rustRem ratTrunc
  rw [div_one, one_mul]
  split_ifs with h
  · rw [show x - (⌊x⌋ : ℚ) = Int.fract x from rfl]
    exact ⟨by linarith [Int.fract_nonneg x], Int.fract_lt_one x⟩
  · have h1 : x ≤ (⌈x⌉ : ℚ) := Int.le_ceil x
    have h2 : (⌈x⌉ : ℚ) < x + 1 := Int.ceil_lt_add_one x
    exact ⟨by linarith, by linarith⟩

/- The corrected local phase of an LFO always lies in [0, 1). -/

theorem lfoLocalPhase_mem (speed off gp : ℚ) :
    0 ≤ lfoLocalPhase speed off gp ∧ lfoLocalPhase speed off gp < 1 := by
  have hrw : lfoLocalPhase speed off gp =
      if rustRem (gp * speed + off) 1 < 0 then rustRem (gp * speed + off) 1 + 1
      else rustRem (gp * speed + off) 1 := rfl
  rw [hrw]
  obtain ⟨h1, h2⟩ := rustRem_one_bounds (gp * speed + off)
  split_ifs with h
  · exact ⟨by linarith, by linarith⟩
  · exact ⟨le_of_not_lt h, h2⟩

theorem designerIdx_lt (phase : ℚ) (h : phase < 1) : designerIdx phase < 16 := by
  unfold designerIdx
  have h16 : ⌊phase * 16⌋ < 16 := by
    rw [Int.floor_lt]
    push_cast
    linarith
  omega

/-- Claim C10: calculate_lfo is a total function: for every LFO of any shape
and every rational speed, phase offset (negative values included), amount and
global phase it returns a value, because the composed local phase is reduced
into the range [0, 1) and the Designer table index is reduced mod 16 before
indexing the 16-entry table, so no access is out of bounds. -/
theorem C10_calculate_lfo_total (lfo : LFO) (gp : ℚ) :
    (∃ r : ℝ, calculate_lfo lfo gp = r) ∧
    0 ≤ lfoLocalPhase lfo.speed lfo.phase gp ∧
    lfoLocalPhase lfo.speed lfo.phase gp < 1 ∧
    designerIdx (lfoLocalPhase lfo.speed lfo.phase gp) < 16 ∧
    designerIdx (lfoLocalPhase lfo.speed lfo.phase gp) % 16 < 16 ∧
    (designerIdx (lfoLocalPhase lfo.speed lfo.phase gp) + 1) % 16 < 16 := by
  obtain ⟨h0, h1⟩ := lfoLocalPhase_mem lfo.speed lfo.phase gp
  exact ⟨⟨_, rfl⟩, h0, h1, designerIdx_lt _ h1,
    Nat.mod_lt _ (by norm_num), Nat.mod_lt _ (by norm_num)⟩

/-- Claim C9 (amended): a freshly constructed audio kernel holds the default
4-track pattern with one further four-on-the-floor track pushed by the kernel
constructor: 5 tracks in total, each with 16 steps, at 120 BPM. -/
theorem C9_amended (SR : ℚ) :
    (FluxKernel.new SR).pattern.tracks.length = 5 ∧
    ((FluxKernel.new SR).pattern.tracks.all fun tr =>
        tr.subtracks.all fun sub => sub.steps.length == 16) = true ∧
    (FluxKernel.new SR).pattern.bpm = 120 :=
  ⟨rfl, rfl, rfl⟩

/-- Claim C9 counterexample: the fresh kernel at sample rate 44100 holds a
pattern with 5 tracks, not 4: the kernel constructor pushes its own default
track onto the already 4-track default pattern. -/
theorem C9_counterexample :
    (FluxKernel.new 44100).pattern.tracks.length = 5 ∧ (5 : ℕ) ≠ 4 :=
  ⟨rfl, by decide⟩

/-- Claim C4: for every pattern satisfying the section 3 invariants, applying
UpdatePattern leaves the engine cached pattern exactly equal, field for field,
to the sent pattern, and sets the engine cached tempo to the pattern bpm. -/
theorem C4_update_pattern_roundtrip (e : MidiEngineState) (p : Pattern) (hwf : p.WF) :
    (applyEngineCommand e (EngineCommand.UpdatePattern p)).pattern = Option.some p ∧
    (applyEngineCommand e (EngineCommand.UpdatePattern p)).bpm = p.bpm :=
  ⟨rfl, rfl⟩

theorem default_pattern_wf : Pattern.WF Pattern.default := by
  refine ⟨by simp [Pattern.default], ?_, ?_⟩
  · intro i h
    simp only [Pattern.default, List.length_cons, List.length_nil] at h
    interval_cases i <;> rfl
  · intro tr htr sub hsub
    have hs : sub = defaultSubtrack := by
      simp only [Pattern.default, List.mem_cons, List.not_mem_nil, or_false] at htr
      rcases htr with h | h | h | h <;>
        · subst h
          simpa [defaultTrack] using hsub
    have hlen : tr.length = 16 := by
      simp only [Pattern.default, List.mem_cons, List.not_mem_nil, or_false] at htr
      rcases htr with h | h | h | h <;> subst h <;> rfl
    subst hs
    refine ⟨by simp [hlen, defaultSubtrack], ?_⟩
    intro st hst
    have hst2 : st = AtomicStep.default := by simpa [defaultSubtrack] using hst
    subst hst2
    simp [AtomicStep.default]

/- Per-frame behavior of the audio generation loop. -/

theorem frame_not_playing (s : FluxKernel) (hp : s.is_playing = false) : s.frame = s := by
  unfold FluxKernel.frame
  rw [hp]
  simp

theorem frame_no_cross (s : FluxKernel) (hp : s.is_playing = true)
    (hc : ¬ s.samples_per_step ≤ s.step_phase + 1) :
    s.frame = { s with step_phase := s.step_phase + 1,
                       playhead_sample := s.playhead_sample + 1 } := by
  unfold FluxKernel.frame
  rw [hp]
  simp only [if_true]
  rw [if_neg hc]

theorem frame_cross_fields (s : FluxKernel) (hp : s.is_playing = true)
    (hc : s.samples_per_step ≤ s.step_phase + 1) :
    (s.frame).is_playing = true ∧
    (s.frame).samples_per_step = s.samples_per_step ∧
    (s.frame).pattern = s.pattern ∧
    (s.frame).step_phase = s.step_phase + 1 - s.samples_per_step ∧
    (s.frame).current_step = (s.current_step + 1) % 16 := by
  unfold FluxKernel.frame
  rw [hp]
  simp only [if_true]
  rw [if_pos hc]
  cases hst : stepAt s.pattern ((s.current_step + 1) % 16) with
  | none => simp [hst]
  | some st =>
      by_cases ht : st.trig_type = TrigType.None <;> simp [hst, ht]

/- Every frame preserves the clock configuration, the playing flag, and the
   pattern: used for the reachable-state invariant. -/

theorem frame_preserves (s : FluxKernel) :
    (s.frame).samples_per_step = s.samples_per_step ∧
    (s.frame).is_playing = s.is_playing ∧
    (s.frame).pattern = s.pattern := by
  unfold FluxKernel.frame
  by_cases hp : s.is_playing = true
  · rw [hp]
    simp only [if_true]
    by_cases hc : s.samples_per_step ≤ s.step_phase + 1
    · rw [if_pos hc]
      cases hst : stepAt s.pattern ((s.current_step + 1) % 16) with
      | none => simp [hst, hp]
      | some st =>
          by_cases ht : st.trig_type = TrigType.None <;> simp [hst, ht, hp]
    · rw [if_neg hc]
      simp [hp]
  · have hp2 : s.is_playing = false := by
      cases h : s.is_playing
      · rfl
      · exact absurd h hp
    rw [hp2]
    simp [hp2]

theorem processFrames_zero (s : FluxKernel) : s.processFrames 0 = s := rfl

theorem processFrames_succ (s : FluxKernel) (n : ℕ) :
    s.processFrames (n + 1) = s.frame.processFrames n := rfl

theorem processFrames_add (s : FluxKernel) (a b : ℕ) :
    s.processFrames (a + b) = (s.processFrames a).processFrames b := by
  induction a generalizing s with
  | zero => rw [Nat.zero_add]; rfl
  | succ a ih =>
      rw [show a + 1 + b = a + b + 1 from by omega, processFrames_succ, processFrames_succ]
      exact ih s.frame

/- Running m frames that never reach the step threshold leaves the step index
   in place and advances only the phase accumulator and the playhead. -/

theorem processFrames_no_cross (m : ℕ) : ∀ s : FluxKernel, s.is_playing = true →
    s.step_phase + (m : ℚ) < s.samples_per_step →
    (s.processFrames m).is_playing = true ∧
    (s.processFrames m).samples_per_step = s.samples_per_step ∧
    (s.processFrames m).pattern = s.pattern ∧
    (s.processFrames m).current_step = s.current_step ∧
    (s.processFrames m).step_phase = s.step_phase + (m : ℚ) := by
  induction m with
  | zero =>
      intro s hp h
      exact ⟨hp, rfl, rfl, rfl, by rw [processFrames_zero]; push_cast; ring⟩
  | succ m ih =>
      intro s hp h
      push_cast at h
      have hlt : ¬ s.samples_per_step ≤ s.step_phase + 1 := by
        have hm : (0 : ℚ) ≤ (m : ℚ) := Nat.cast_nonneg m
        intro hle
        linarith
      rw [processFrames_succ, frame_no_cross s hp hlt]
      obtain ⟨a, b, c, d, e⟩ :=
        ih { s with step_phase := s.step_phase + 1,
                    playhead_sample := s.playhead_sample + 1 }
          hp
          (by show s.step_phase + 1 + (m : ℚ) < s.samples_per_step
              linarith)
      refine ⟨a, by simpa using b, by simpa using c, by simpa using d, ?_⟩
      rw [e]
      push_cast
      ring_nf

/- The samples_per_step derived by FluxKernel.new at the fixed 120 BPM. -/

theorem new_samples_per_step (SR : ℚ) :
    (FluxKernel.new SR).samples_per_step = SR * 60 / 480 := by
  show SR * 60 / (120 * 4) = SR * 60 / 480
  norm_num

/- After Play, the very first processed frame crosses the saturated phase
   threshold and lands the step index on step 0. -/

theorem kernel_first_sample (SR : ℚ) :
    (((FluxKernel.new SR).applyCommand AudioCommand.Play).processFrames 1).current_step = 0 := by
  set s1 := (FluxKernel.new SR).applyCommand AudioCommand.Play with hs1
  have hp1 : s1.is_playing = true := rfl
  have hph : s1.step_phase = s1.samples_per_step := rfl
  have hc1 : s1.samples_per_step ≤ s1.step_phase + 1 := by rw [hph]; linarith
  obtain ⟨f1, f2, f3, f4, f5⟩ := frame_cross_fields s1 hp1 hc1
  have hcs : s1.current_step = 15 := by rw [hs1]; rfl
  have : s1.processFrames 1 = s1.frame := rfl
  rw [this, f5, hcs]

/- After Play, running a whole number of frames equal to samples_per_step ends
   with the step index on step 1: the first frame crosses into step 0 and the
   final frame completes step 0 and crosses into step 1. -/

theorem kernel_step_after_full_step (SR : ℚ) (n : ℕ) (h2 : 2 ≤ n)
    (hn : (n : ℚ) = (FluxKernel.new SR).samples_per_step) :
    (((FluxKernel.new SR).applyCommand AudioCommand.Play).processFrames n).current_step = 1 := by
  obtain ⟨m, rfl⟩ : ∃ m, n = 1 + m + 1 := ⟨n - 2, by omega⟩
  set s1 := (FluxKernel.new SR).applyCommand AudioCommand.Play with hs1
  have hp1 : s1.is_playing = true := rfl
  have hph : s1.step_phase = s1.samples_per_step := rfl
  have hsps : s1.samples_per_step = ((1 + m + 1 : ℕ) : ℚ) := hn.symm
  rw [processFrames_add, processFrames_add]
  have e1 : s1.processFrames 1 = s1.frame := rfl
  have hc1 : s1.samples_per_step ≤ s1.step_phase + 1 := by rw [hph]; linarith
  obtain ⟨f1, f2, f3, f4, f5⟩ := frame_cross_fields s1 hp1 hc1
  have hcs : s1.current_step = 15 := by rw [hs1]; rfl
  have hstep2 : (s1.frame).current_step = 0 := by rw [f5, hcs]
  have hph2 : (s1.frame).step_phase = 1 := by rw [f4, hph]; ring
  have hcnd : (s1.frame).step_phase + (m : ℚ) < (s1.frame).samples_per_step := by
    rw [hph2, f2, hsps]
    push_cast
    linarith
  obtain ⟨g1, g2, g3, g4, g5⟩ := processFrames_no_cross m s1.frame f1 hcnd
  have hc3 : ((s1.frame).processFrames m).samples_per_step ≤
      ((s1.frame).processFrames m).step_phase + 1 := by
    rw [g2, f2, hsps, g5, hph2]
    push_cast
    linarith
  obtain ⟨k1, k2, k3, k4, k5⟩ := frame_cross_fields ((s1.frame).processFrames m) g1 hc3
  have e3 : ((s1.frame).processFrames m).processFrames 1 = ((s1.frame).processFrames m).frame :=
    rfl
  rw [e1, e3, k5, g4, hstep2]

/-- Claim C1 (amended): for every sample rate SR, a kernel at 120 BPM has
samples_per_step equal to SR * 60 / 480. Starting Stopped (current step one
position behind step 0), after a Play command the first processed frame lands
the step index on step 0, and after exactly samples_per_step frames (whenever
samples_per_step is a whole number of at least 2) the step index stands on
step 1: it has advanced two step positions mod 16 in total, the first advance
landing on step 0 at the first sample and the final frame completing step 0. -/
theorem C1_amended (SR : ℚ) (n : ℕ) (h2 : 2 ≤ n)
    (hn : (n : ℚ) = (FluxKernel.new SR).samples_per_step) :
    (FluxKernel.new SR).samples_per_step = SR * 60 / 480 ∧
    (((FluxKernel.new SR).applyCommand AudioCommand.Play).processFrames 1).current_step = 0 ∧
    (((FluxKernel.new SR).applyCommand AudioCommand.Play).processFrames n).current_step = 1 :=
  ⟨new_samples_per_step SR, kernel_first_sample SR, kernel_step_after_full_step SR n h2 hn⟩

/-- Claim C1 counterexample: at sample rate 48000 the kernel has samples_per_step
exactly 6000; starting Stopped at step index 15, after Play and exactly 6000
processed frames the step index is 1, not (15 + 1) mod 16 = 0, so the index has
advanced two positions mod 16 rather than exactly one. -/
theorem C1_counterexample :
    (6000 : ℚ) = (FluxKernel.new 48000).samples_per_step ∧
    (FluxKernel.new 48000).current_step = 15 ∧
    ((FluxKernel.new 48000).current_step + 1) % 16 = 0 ∧
    (((FluxKernel.new 48000).applyCommand AudioCommand.Play).processFrames 6000).current_step
      = 1 ∧
    (1 : ℕ) ≠ 0 := by
  have hn : (6000 : ℚ) = (FluxKernel.new 48000).samples_per_step := by
    rw [new_samples_per_step]
    norm_num
  exact ⟨hn, rfl, rfl, kernel_step_after_full_step 48000 6000 (by norm_num) hn, by decide⟩

theorem C1_witness :
    (FluxKernel.new 48000).samples_per_step = 48000 * 60 / 480 ∧
    (((FluxKernel.new 48000).applyCommand AudioCommand.Play).processFrames 1).current_step
      = 0 ∧
    (((FluxKernel.new 48000).applyCommand AudioCommand.Play).processFrames 6000).current_step
      = 1 :=
  C1_amended 48000 6000 (by norm_num)
    (by rw [new_samples_per_step]; norm_num)

/- Preservation lemmas for the Stopped-state invariant: every command keeps the
   clock configuration, and a state that is Stopped always sits at the initial
   playhead, step index and phase. -/

theorem applyCommand_sps (s : FluxKernel) (c : AudioCommand) :
    (s.applyCommand c).samples_per_step = s.samples_per_step := by
  cases c <;> rfl

theorem applyCommands_sps : ∀ (cmds : List AudioCommand) (s : FluxKernel),
    (s.applyCommands cmds).samples_per_step = s.samples_per_step
  | [], _ => rfl
  | c :: cs, s => by
      rw [show s.applyCommands (c :: cs) = (s.applyCommand c).applyCommands cs from rfl,
        applyCommands_sps cs, applyCommand_sps]

theorem processFrames_sps : ∀ (n : ℕ) (s : FluxKernel),
    (s.processFrames n).samples_per_step = s.samples_per_step
  | 0, _ => rfl
  | n + 1, s => by
      rw [processFrames_succ, processFrames_sps n, (frame_preserves s).1]

theorem stopped_inv_applyCommand (s : FluxKernel) (c : AudioCommand)
    (h : s.is_playing = false → s.playhead_sample = 0 ∧ s.current_step = 15 ∧
        s.step_phase = s.samples_per_step) :
    (s.applyCommand c).is_playing = false → (s.applyCommand c).playhead_sample = 0 ∧
      (s.applyCommand c).current_step = 15 ∧
      (s.applyCommand c).step_phase = (s.applyCommand c).samples_per_step := by
  cases c with
  | Play =>
      intro hpl
      have hb : (true : Bool) = false := hpl
      exact Bool.noConfusion hb
  | Stop => intro _; exact ⟨rfl, rfl, rfl⟩
  | SetGlobalVolume v => exact h
  | ToggleStep a b => exact h
  | SetParamLock a b c v => exact h

theorem stopped_inv_commands : ∀ (cmds : List AudioCommand) (s : FluxKernel),
    (s.is_playing = false → s.playhead_sample = 0 ∧ s.current_step = 15 ∧
      s.step_phase = s.samples_per_step) →
    ((s.applyCommands cmds).is_playing = false →
      (s.applyCommands cmds).playhead_sample = 0 ∧ (s.applyCommands cmds).current_step = 15 ∧
      (s.applyCommands cmds).step_phase = (s.applyCommands cmds).samples_per_step)
  | [], _, h => h
  | c :: cs, s, h => stopped_inv_commands cs (s.applyCommand c) (stopped_inv_applyCommand s c h)

theorem stopped_inv_frames : ∀ (n : ℕ) (s : FluxKernel),
    (s.is_playing = false → s.playhead_sample = 0 ∧ s.current_step = 15 ∧
      s.step_phase = s.samples_per_step) →
    ((s.processFrames n).is_playing = false →
      (s.processFrames n).playhead_sample = 0 ∧ (s.processFrames n).current_step = 15 ∧
      (s.processFrames n).step_phase = (s.processFrames n).samples_per_step)
  | 0, _, h => h
  | n + 1, s, h => by
      rw [processFrames_succ]
      apply stopped_inv_frames n s.frame
      intro hf
      obtain ⟨w1, w2, w3⟩ := frame_preserves s
      have hs : s.is_playing = false := by rw [← w2]; exact hf
      rw [frame_not_playing s hs]
      exact h hs

/- Every kernel state reachable from a fresh kernel keeps the constructed
   samples_per_step, and whenever it is Stopped it sits at playhead 0, step
   index 15 and a saturated phase accumulator. -/

theorem stopped_inv_reachable (SR : ℚ) (s : FluxKernel)
    (h : Reachable (FluxKernel.new SR) s) :
    s.samples_per_step = (FluxKernel.new SR).samples_per_step ∧
    (s.is_playing = false → s.playhead_sample = 0 ∧ s.current_step = 15 ∧
      s.step_phase = s.samples_per_step) := by
  induction h with
  | refl => exact ⟨rfl, fun _ => ⟨rfl, rfl, rfl⟩⟩
  | step t cmds n hr ih =>
      obtain ⟨ih1, ih2⟩ := ih
      refine ⟨?_, ?_⟩
      · show ((t.applyCommands cmds).processFrames n).samples_per_step = _
        rw [processFrames_sps, applyCommands_sps, ih1]
      · exact stopped_inv_frames n (t.applyCommands cmds) (stopped_inv_commands cmds t ih2)

/-- Claim C6: applying Stop returns the playhead, the step index and the
step-phase accumulator of any reachable kernel state to their initial values,
and on a state that is already Stopped it leaves all three unchanged, so Stop
is idempotent on reachable states. -/
theorem C6_stop_resets_and_idempotent (SR : ℚ) (s : FluxKernel)
    (h : Reachable (FluxKernel.new SR) s) :
    ((s.applyCommand AudioCommand.Stop).is_playing = false ∧
     (s.applyCommand AudioCommand.Stop).playhead_sample = (FluxKernel.new SR).playhead_sample ∧
     (s.applyCommand AudioCommand.Stop).current_step = (FluxKernel.new SR).current_step ∧
     (s.applyCommand AudioCommand.Stop).step_phase = (FluxKernel.new SR).step_phase) ∧
    (s.is_playing = false →
      (s.applyCommand AudioCommand.Stop).playhead_sample = s.playhead_sample ∧
      (s.applyCommand AudioCommand.Stop).current_step = s.current_step ∧
      (s.applyCommand AudioCommand.Stop).step_phase = s.step_phase) := by
  obtain ⟨hsps, hinv⟩ := stopped_inv_reachable SR s h
  constructor
  · refine ⟨rfl, rfl, rfl, ?_⟩
    show s.samples_per_step = (FluxKernel.new SR).step_phase
    rw [hsps]
    rfl
  · intro hstop
    obtain ⟨p1, p2, p3⟩ := hinv hstop
    refine ⟨?_, ?_, ?_⟩
    · show (0 : ℕ) = s.playhead_sample
      rw [p1]
    · show (15 : ℕ) = s.current_step
      rw [p2]
    · show s.samples_per_step = s.step_phase
      rw [p3]

theorem C6_witness :
    ((FluxKernel.new 44100).applyCommand AudioCommand.Stop).playhead_sample
      = (FluxKernel.new 44100).playhead_sample ∧
    ((FluxKernel.new 44100).applyCommand AudioCommand.Stop).current_step
      = (FluxKernel.new 44100).current_step ∧
    ((FluxKernel.new 44100).applyCommand AudioCommand.Stop).step_phase
      = (FluxKernel.new 44100).step_phase := by
  have h := C6_stop_resets_and_idempotent 44100 (FluxKernel.new 44100) Reachable.refl
  exact h.2 rfl

/- The nested get_mut chain used by ToggleStep and SetParamLock is the
   identity whenever the per-step update is the identity on the addressed
   step (in particular when any lookup of the chain fails). -/

theorem nestedModify_eq (p : Pattern) (tid sid : ℕ) (f : AtomicStep → AtomicStep)
    (hf : ∀ (tr : Track) (sub : Subtrack) (st : AtomicStep),
      p.tracks.get? tid = Option.some tr → tr.subtracks.get? 0 = Option.some sub →
      sub.steps.get? sid = Option.some st → f st = st) :
    modifyIdx (fun tr =>
      { tr with subtracks := modifyIdx (fun sub => { sub with steps := modifyIdx f sid sub.steps }) 0 tr.subtracks }) tid p.tracks = p.tracks := by
  apply modifyIdx_eq_of_get?
  intro tr htr
  have inner : modifyIdx (fun sub => { sub with steps := modifyIdx f sid sub.steps })
      0 tr.subtracks = tr.subtracks := by
    apply modifyIdx_eq_of_get?
    intro sub hsub
    have hsteps : modifyIdx f sid sub.steps = sub.steps := by
      apply modifyIdx_eq_of_get?
      intro st hst
      exact hf tr sub st htr hsub hst
    rw [hsteps]
  rw [inner]

/-- Claim C5: applying SetParamLock with param_id at least 128, or with a track
or step address outside the current pattern shape, leaves the entire kernel
state unchanged (the guarded write never happens, so nothing is written out of
bounds), and applying ToggleStep with an out-of-range track or step address
likewise leaves the kernel state unchanged. -/
theorem C5_bounds_noop (s : FluxKernel) (tid sid pid : ℕ) (v : Option ℚ) :
    ((128 ≤ pid ∨ StepAddrInvalid s.pattern tid sid) →
      s.applyCommand (AudioCommand.SetParamLock tid sid pid v) = s) ∧
    (StepAddrInvalid s.pattern tid sid →
      s.applyCommand (AudioCommand.ToggleStep tid sid) = s) := by
  constructor
  · intro hcase
    have hf : ∀ (tr : Track) (sub : Subtrack) (st : AtomicStep),
        s.pattern.tracks.get? tid = Option.some tr →
        tr.subtracks.get? 0 = Option.some sub →
        sub.steps.get? sid = Option.some st →
        (if pid < 128 then { st with p_locks := st.p_locks.set pid v } else st) = st := by
      intro tr sub st htr hsub hst
      rcases hcase with hpid | hinv
      · exact if_neg (by omega)
      · obtain ⟨hlt, _⟩ := List.get?_eq_some.mp hst
        exact absurd hlt (by have := hinv tr htr sub hsub; omega)
    have hL := nestedModify_eq s.pattern tid sid _ hf
    show { s with pattern := { s.pattern with tracks := modifyIdx (fun tr => { tr with subtracks := modifyIdx (fun sub => { sub with steps := modifyIdx (fun st => if pid < 128 then { st with p_locks := st.p_locks.set pid v } else st) sid sub.steps }) 0 tr.subtracks }) tid s.pattern.tracks } } = s
    rw [hL]
  · intro hinv
    have hf : ∀ (tr : Track) (sub : Subtrack) (st : AtomicStep),
        s.pattern.tracks.get? tid = Option.some tr →
        tr.subtracks.get? 0 = Option.some sub →
        sub.steps.get? sid = Option.some st →
        ({ st with trig_type :=
            match st.trig_type with
            | TrigType.None => TrigType.Note
            | _ => TrigType.None } : AtomicStep) = st := by
      intro tr sub st htr hsub hst
      obtain ⟨hlt, _⟩ := List.get?_eq_some.mp hst
      exact absurd hlt (by have := hinv tr htr sub hsub; omega)
    have hL := nestedModify_eq s.pattern tid sid _ hf
    show { s with pattern := { s.pattern with tracks := modifyIdx (fun tr => { tr with subtracks := modifyIdx (fun sub => { sub with steps := modifyIdx (fun st => { st with trig_type := match st.trig_type with | TrigType.None => TrigType.Note | _ => TrigType.None }) sid sub.steps }) 0 tr.subtracks }) tid s.pattern.tracks } } = s
    rw [hL]

theorem C5_witness :
    c3Kernel.applyCommand (AudioCommand.SetParamLock 0 3 200 (Option.some (1 / 2)))
      = c3Kernel ∧
    c3Kernel.applyCommand (AudioCommand.ToggleStep 7 0) = c3Kernel := by
  refine ⟨(C5_bounds_noop c3Kernel 0 3 200 (Option.some (1 / 2))).1 (Or.inl (by norm_num)),
          (C5_bounds_noop c3Kernel 7 0 0 Option.none).2 ?_⟩
  intro tr htr
  simp [c3Kernel, c3Pattern] at htr

/- The equal-temperament conversion lands the locked note 72 within a tenth of
   a hertz of 523.25. -/

theorem midi_to_freq_72 : |midi_to_freq 72 - 523.25| < 0.1 := by
  unfold midi_to_freq
  have h1 : (((72 : ℚ) : ℝ) - 69) / 12 = 1 / 4 := by norm_num
  rw [h1]
  set c := (2 : ℝ) ^ ((1 : ℝ) / 4) with hc
  have hcpos : 0 < c := Real.rpow_pos_of_pos (by norm_num) _
  have hc4 : c ^ (4 : ℕ) = 2 := by
    rw [hc, ← Real.rpow_natCast ((2 : ℝ) ^ ((1 : ℝ) / 4)) 4,
      ← Real.rpow_mul (by norm_num : (0 : ℝ) ≤ 2)]
    norm_num
  have hlow : (523.15 : ℝ) / 440 < c := by
    by_contra hle
    push_neg at hle
    have hp : c ^ (4 : ℕ) ≤ ((523.15 : ℝ) / 440) ^ (4 : ℕ) :=
      pow_le_pow_left₀ hcpos.le hle 4
    rw [hc4] at hp
    norm_num at hp
  have hhigh : c < (523.35 : ℝ) / 440 := by
    by_contra hle
    push_neg at hle
    have hp : ((523.35 : ℝ) / 440) ^ (4 : ℕ) ≤ c ^ (4 : ℕ) :=
      pow_le_pow_left₀ (by norm_num) hle 4
    rw [hc4] at hp
    norm_num at hp
  rw [abs_sub_lt_iff]
  constructor <;> nlinarith

/-- Claim C3: when the step clock crosses into a step whose trigger kind is not
None, the voice frequency is set from the pitch parameter lock when present,
falling back to the stored note, through the equal-temperament conversion; a
pitch lock of 72 yields a frequency within 0.1 Hz of 523.25 Hz regardless of
the stored note, and the voice playhead is reset (to 0, then advanced to 1 by
the same frame) so the envelope restarts. -/
theorem C3_trigger_pitch (s : FluxKernel) (st : AtomicStep)
    (hp : s.is_playing = true)
    (hc : s.samples_per_step ≤ s.step_phase + 1)
    (hs : stepAt s.pattern ((s.current_step + 1) % 16) = Option.some st)
    (ht : st.trig_type ≠ TrigType.None) :
    (s.frame).current_frequency = midi_to_freq ((pLockAt st PARAM_PITCH).getD (st.note : ℚ)) ∧
    (s.frame).playhead_sample = 1 ∧
    (pLockAt st PARAM_PITCH = Option.some 72 →
      (s.frame).current_frequency = midi_to_freq 72) ∧
    |midi_to_freq 72 - 523.25| < 0.1 := by
  have hmain : (s.frame).current_frequency =
      midi_to_freq ((pLockAt st PARAM_PITCH).getD (st.note : ℚ)) ∧
      (s.frame).playhead_sample = 1 := by
    unfold FluxKernel.frame
    rw [hp]
    simp only [if_true]
    rw [if_pos hc, hs]
    dsimp only
    rw [if_pos ht]
    exact ⟨rfl, rfl⟩
  obtain ⟨hfreq, hph⟩ := hmain
  refine ⟨hfreq, hph, ?_, midi_to_freq_72⟩
  intro hlock
  rw [hfreq, hlock]
  rfl

theorem C3_witness :
    c3Kernel.is_playing = true ∧
    c3Kernel.samples_per_step ≤ c3Kernel.step_phase + 1 ∧
    stepAt c3Kernel.pattern ((c3Kernel.current_step + 1) % 16) = Option.some c3Step ∧
    c3Step.trig_type ≠ TrigType.None ∧
    pLockAt c3Step PARAM_PITCH = Option.some 72 ∧
    (c3Kernel.frame).current_frequency = midi_to_freq 72 ∧
    (c3Kernel.frame).playhead_sample = 1 := by
  have hc : c3Kernel.samples_per_step ≤ c3Kernel.step_phase + 1 := by
    show (11025 / 2 : ℚ) ≤ 11025 / 2 + 1
    norm_num
  have hs : stepAt c3Kernel.pattern ((c3Kernel.current_step + 1) % 16) = Option.some c3Step :=
    rfl
  have ht : c3Step.trig_type ≠ TrigType.None := by decide
  have hlock : pLockAt c3Step PARAM_PITCH = Option.some 72 := rfl
  have h := C3_trigger_pitch c3Kernel c3Step rfl hc hs ht
  exact ⟨rfl, hc, hs, ht, hlock, h.2.2.1 hlock, h.2.1⟩

/- The float remainder of a tick count by the 96-tick bar agrees with the
   natural-number remainder. -/

theorem rustRem_natCast (t : ℕ) : rustRem (t : ℚ) 96 = ((t % 96 : ℕ) : ℚ) := by
  have h0 : (0 : ℚ) ≤ (t : ℚ) / 96 := by positivity
  unfold rustRem ratTrunc
  rw [if_pos h0]
  have hfl : ⌊(t : ℚ) / 96⌋ = ((t / 96 : ℕ) : ℤ) := by
    rw [Int.floor_eq_iff]
    constructor
    · rw [le_div_iff₀ (by norm_num : (0 : ℚ) < 96)]
      exact_mod_cast Nat.div_mul_le_self t 96
    · rw [div_lt_iff₀ (by norm_num : (0 : ℚ) < 96)]
      have hb : t < (t / 96 + 1) * 96 := by omega
      push_cast
      exact_mod_cast hb
  rw [hfl]
  have hdm : 96 * (t / 96) + t % 96 = t := Nat.div_add_mod t 96
  have hq := congrArg (fun n : ℕ => (n : ℚ)) hdm
  push_cast at hq
  rw [show (((t / 96 : ℕ) : ℤ) : ℚ) = ((t / 96 : ℕ) : ℚ) from by push_cast; rfl]
  linarith

/- The per-track LFO loop emits exactly the CC messages of the LFOs with a
   nonzero amount, in order. -/

theorem lfoPass_eq (ch : ℕ) (gp : ℚ) (ls : List LFO) :
    lfoPass ch gp ls = (ls.filter fun l => decide ¬(l.amount = 0)).map
      (fun l => send_cc ch l.destination (ccValOf (calculate_lfo l gp))) := by
  induction ls with
  | nil => rfl
  | cons l ls ih =>
      by_cases h : l.amount = 0
      · simp [lfoPass, List.filter_cons, h, ih]
      · simp [lfoPass, List.filter_cons, h, ih]

theorem ccSection_eq (gp : ℚ) (trs : List Track) :
    ccSection gp trs = (trs.map fun tr => lfoPass (tr.id % 256) gp tr.lfos).flatten := by
  induction trs with
  | nil => rfl
  | cons tr trs ih => simp [ccSection, ih]

/-- Claim C8: on every tick, the global phase used is (tick mod 96) / 96 with
bar_ticks = ppqn * 4 = 96, and the tick emits exactly one control change per
track per LFO of nonzero amount, addressed to that LFO destination and carrying
the evaluated modulation scaled from [-1, 1] to the 0..127 controller range;
LFOs with amount 0 send nothing, and the note events follow the CC block. -/
theorem C8_cc_per_tick (t : ℕ) (p : Pattern) :
    process_tick t p =
      (p.tracks.map fun tr =>
        (tr.lfos.filter fun l => decide ¬(l.amount = 0)).map
          (fun l => send_cc (tr.id % 256) l.destination
            (ccValOf (calculate_lfo l (((t % 96 : ℕ) : ℚ) / 96))))).flatten
      ++ noteSection t p := by
  show ccSection (rustRem (t : ℚ) 96 / 96) p.tracks ++ noteSection t p = _
  rw [rustRem_natCast, ccSection_eq]
  simp only [lfoPass_eq]

/- The per-subtrack note loop as a join of per-subtrack message blocks. -/

theorem subNotes_eq (ch idx : ℕ) (subs : List Subtrack) :
    subNotes ch idx subs = (subs.map fun sub =>
      match sub.steps.get? idx with
      | Option.some st =>
          if st.trig_type = TrigType.Note
          then [send_note_on ch st.note st.velocity, send_note_off ch st.note]
          else []
      | Option.none => []).flatten := by
  induction subs with
  | nil => rfl
  | cons sub subs ih => simp [subNotes, ih]

theorem trackNotes_eq (idx : ℕ) (trs : List Track) :
    trackNotes idx trs = (trs.map fun tr => subNotes (tr.id % 256) idx tr.subtracks).flatten := by
  induction trs with
  | nil => rfl
  | cons tr trs ih => simp [trackNotes, ih]

/-- Claim C2 (amended): every 6 ticks (ppqn / 4 with ppqn 24) the engine reads
the step at index (tick_count / 6) mod 16 — the fixed 16-step grid, regardless
of the actual step count of a subtrack — and for every track and subtrack, a
step there whose trigger kind is exactly Note emits a note-on with its note and
velocity immediately followed by a note-off for the same note; steps with any
other trigger kind, None included, emit nothing, and off-grid ticks emit no
note events. -/
theorem C2_note_events (t : ℕ) (p : Pattern) :
    (t % 6 = 0 →
      noteSection t p = (p.tracks.map fun tr =>
        (tr.subtracks.map fun sub =>
          match sub.steps.get? ((t / 6) % 16) with
          | Option.some st =>
              if st.trig_type = TrigType.Note
              then [send_note_on (tr.id % 256) st.note st.velocity,
                    send_note_off (tr.id % 256) st.note]
              else []
          | Option.none => []).flatten).flatten) ∧
    (¬ t % 6 = 0 → noteSection t p = []) ∧
    process_tick t p = ccSection (rustRem (t : ℚ) 96 / 96) p.tracks ++ noteSection t p := by
  refine ⟨?_, ?_, rfl⟩
  · intro h6
    unfold noteSection
    rw [if_pos h6, trackNotes_eq]
    simp only [subNotes_eq]
  · intro h6
    unfold noteSection
    rw [if_neg h6]

theorem C2_witness :
    (0 : ℕ) % 6 = 0 ∧
    noteSection 0 witPatternC2 = [send_note_on 0 60 100, send_note_off 0 60] ∧
    ¬ (1 : ℕ) % 6 = 0 ∧
    noteSection 1 witPatternC2 = [] := by
  refine ⟨by decide, ?_, by decide, (C2_note_events 1 witPatternC2).2.1 (by decide)⟩
  rw [(C2_note_events 0 witPatternC2).1 (by decide)]
  rfl

/-- Claim C2 counterexample: a step with the OneShot trigger kind (not None)
emits no MIDI note at all, since the engine only fires on the Note kind; and on
a 32-step subtrack at tick 96 the engine reads step (96 / 6) mod 16 = 0, not
(96 / 6) mod 32 = 16, so the Note trigger sitting at step 16 stays silent. -/
theorem C2_counterexample :
    (process_tick 0 cexPatternA = [] ∧ oneShotStep.trig_type ≠ TrigType.None) ∧
    (process_tick 96 cexPatternB = [] ∧ (96 / 6) % 32 = 16 ∧
      cexSteps32.get? 16 = Option.some noteStep16 ∧
      noteStep16.trig_type ≠ TrigType.None) := by
  constructor
  · exact ⟨rfl, by decide⟩
  · exact ⟨rfl, by decide, rfl, by decide⟩

/- With unit speed and no offset, the composed local phase of an in-range
   global phase is the global phase itself. -/

theorem lfoLocalPhase_id (p : ℚ) (h0 : 0 ≤ p) (h1 : p < 1) : lfoLocalPhase 1 0 p = p := by
  unfold lfoLocalPhase rustRem ratTrunc
  simp only [mul_one, add_zero, div_one, one_mul]
  rw [if_pos h0, Int.floor_eq_zero_iff.mpr ⟨h0, h1⟩]
  simp only [Int.cast_zero, sub_zero]
  rw [if_neg (not_lt.mpr h0)]

/- Closed form of the Designer branch of calculate_lfo at unit speed and no
   phase offset: linear interpolation between the mod-16 reduced table entries
   at the floor index and its successor. -/

theorem designer_eval (pts : Fin 16 → ℚ) (amt gp : ℚ) (idx : ℕ) (h0 : 0 ≤ gp) (h1 : gp < 1)
    (hidx : designerIdx gp = idx) (hlt : idx % 16 < 16) (hlt2 : (idx + 1) % 16 < 16) :
    calculate_lfo ⟨LFOShape.Designer pts, 0, amt, 1, 0⟩ gp =
      ((pts ⟨idx % 16, hlt⟩ + (pts ⟨(idx + 1) % 16, hlt2⟩ - pts ⟨idx % 16, hlt⟩) *
        (gp * 16 - (idx : ℚ)) : ℚ) : ℝ) * ((amt : ℚ) : ℝ) := by
  have hlp := lfoLocalPhase_id gp h0 h1
  subst hidx
  calc calculate_lfo ⟨LFOShape.Designer pts, 0, amt, 1, 0⟩ gp
      = ((pts ⟨designerIdx (lfoLocalPhase 1 0 gp) % 16, Nat.mod_lt _ (by norm_num)⟩ +
          (pts ⟨(designerIdx (lfoLocalPhase 1 0 gp) + 1) % 16, Nat.mod_lt _ (by norm_num)⟩ -
           pts ⟨designerIdx (lfoLocalPhase 1 0 gp) % 16, Nat.mod_lt _ (by norm_num)⟩) *
          (lfoLocalPhase 1 0 gp * 16 - (designerIdx (lfoLocalPhase 1 0 gp) : ℚ)) : ℚ) : ℝ) *
          ((amt : ℚ) : ℝ) := rfl
    _ = ((pts ⟨designerIdx gp % 16, Nat.mod_lt _ (by norm_num)⟩ +
          (pts ⟨(designerIdx gp + 1) % 16, Nat.mod_lt _ (by norm_num)⟩ -
           pts ⟨designerIdx gp % 16, Nat.mod_lt _ (by norm_num)⟩) *
          (gp * 16 - (designerIdx gp : ℚ)) : ℚ) : ℝ) * ((amt : ℚ) : ℝ) := by rw [hlp]

/-- Claim C7: the Designer shape evaluates its 16-point table by linear
interpolation with index floor(local_phase * 16) and fractional blend
local_phase * 16 - index: with amount 1 and the table [0, 1, 0, ...], the value
is exactly 0 at phase 0, one half at phase 0.5/16, and 1 at phase 1/16 (hence
within 1e-6 of those targets); and on any table, any phase in [15/16, 1) blends
the last point toward the first, the wrap of point 15 to point 0. -/
theorem C7_designer_interpolation :
    (|calculate_lfo designerTestLFO 0 - 0| < 1e-6 ∧
     |calculate_lfo designerTestLFO (1 / 32) - 1 / 2| < 1e-6 ∧
     |calculate_lfo designerTestLFO (1 / 16) - 1| < 1e-6) ∧
    (∀ (pts : Fin 16 → ℚ) (gp : ℚ), 15 / 16 ≤ gp → gp < 1 →
      calculate_lfo ⟨LFOShape.Designer pts, 0, 1, 1, 0⟩ gp =
        ((pts ⟨15, by norm_num⟩ +
          (pts ⟨0, by norm_num⟩ - pts ⟨15, by norm_num⟩) * (gp * 16 - 15) : ℚ) : ℝ)) := by
  constructor
  · rw [show designerTestLFO = (⟨LFOShape.Designer designerTestTable, 0, 1, 1, 0⟩ : LFO)
      from rfl]
    refine ⟨?_, ?_, ?_⟩
    · rw [designer_eval designerTestTable 1 0 0 le_rfl (by norm_num)
        (by norm_num [designerIdx]) (by norm_num) (by norm_num)]
      norm_num [designerTestTable]
    · rw [designer_eval designerTestTable 1 (1 / 32) 0 (by norm_num) (by norm_num)
        (by norm_num [designerIdx]) (by norm_num) (by norm_num)]
      norm_num [designerTestTable]
    · rw [designer_eval designerTestTable 1 (1 / 16) 1 (by norm_num) (by norm_num)
        (by norm_num [designerIdx]) (by norm_num) (by norm_num)]
      norm_num [designerTestTable]
  · intro pts gp hge hlt
    have hidx : designerIdx gp = 15 := by
      unfold designerIdx
      have hfl : ⌊gp * 16⌋ = 15 := by
        rw [Int.floor_eq_iff]
        constructor
        · push_cast
          linarith
        · push_cast
          linarith
      rw [hfl]
      rfl
    rw [designer_eval pts 1 gp 15 (by linarith) hlt hidx (by norm_num) (by norm_num)]
    norm_num

theorem C7_witness :
    (15 / 16 : ℚ) ≤ 31 / 32 ∧ (31 / 32 : ℚ) < 1 ∧
    calculate_lfo ⟨LFOShape.Designer wrapTestTable, 0, 1, 1, 0⟩ (31 / 32) =
      ((wrapTestTable ⟨15, by norm_num⟩ +
        (wrapTestTable ⟨0, by norm_num⟩ - wrapTestTable ⟨15, by norm_num⟩) *
          ((31 / 32 : ℚ) * 16 - 15) : ℚ) : ℝ) :=
  ⟨by norm_num, by norm_num,
    C7_designer_interpolation.2 wrapTestTable (31 / 32) (by norm_num) (by norm_num)⟩

theorem C4_witness :
    Pattern.WF Pattern.default ∧
    (applyEngineCommand MidiEngineState.new
        (EngineCommand.UpdatePattern Pattern.default)).pattern = Option.some Pattern.default ∧
    (applyEngineCommand MidiEngineState.new
        (EngineCommand.UpdatePattern Pattern.default)).bpm = Pattern.default.bpm :=
  ⟨default_pattern_wf,
    (C4_update_pattern_roundtrip MidiEngineState.new Pattern.default default_pattern_wf).1,
    (C4_update_pattern_roundtrip MidiEngineState.new Pattern.default default_pattern_wf).2⟩

end Flux
